import Mathlib

/-!
Verification of the index-computation core (`compute_index` in
`src/indices.py`) of the data-vulnerabilidade pipeline.

The function takes a pandas DataFrame and an optional list of feature
column names, standardizes the selected columns (sklearn
`StandardScaler`, population standard deviation, zero-variance columns
scaled by 1 instead of 0), reduces several columns to one score per row
with a one-component PCA, and min-max rescales the score vector to
[0,1], returning all zeros in the degenerate `max == min` case.

Cell values are modelled as rationals (`ℚ`, `none` for a missing value);
the numeric computation is carried out over `ℝ`.  The PCA step is a
call into an external library, so `compute_index` is parameterised by
the projection function `pca`; the predicate `IsFirstPCScore` captures
the specification of that projection (projection onto a variance-
maximizing unit axis).  Exceptions are modelled by `Option`: a `none`
result is a raised error.
-/

namespace Indices

/-- A DataFrame column: its name, whether its dtype is numeric
(`df.select_dtypes(include=["number"])` keeps it), and its entries,
`none` standing for a missing value (NaN). -/
structure Column where
  name : String
  numeric : Bool
  values : List (Option ℚ)

/-- A pandas DataFrame: a row count and a list of columns. -/
structure DataFrame where
  nrows : ℕ
  cols : List Column

/-- Well-formedness: every column has exactly `nrows` entries. -/
def DataFrame.WF (df : DataFrame) : Prop :=
  ∀ c ∈ df.cols, c.values.length = df.nrows

/-- `df.select_dtypes(include=["number"]).columns.tolist()`:
the names of the numeric columns, in column order. -/
def numericFeatures (df : DataFrame) : List String :=
  (df.cols.filter (·.numeric)).map (·.name)

/-- The feature list actually used: the explicit argument when given
(`features is not None`), else all numeric columns. -/
def selectFeatures (df : DataFrame) (features : Option (List String)) : List String :=
  features.getD (numericFeatures df)

/-- Column lookup by name (first match, as pandas label lookup). -/
def getCol (df : DataFrame) (n : String) : Option Column :=
  df.cols.find? (·.name = n)

/-- `fillna(0)` applied to one column: every missing entry becomes 0. -/
def filled (c : Column) : List ℚ :=
  c.values.map (fun v => v.getD 0)

/-- `df[features].fillna(0)`, kept column-wise: the selected columns in
the order of `features`, missing values replaced by 0.  A name that is
not a column of `df` raises a `KeyError`, modelled by `none`. -/
def selectCols (df : DataFrame) : List String → Option (List (List ℚ))
  | [] => some []
  | n :: ns =>
    match getCol df n, selectCols df ns with
    | some c, some rest => some (filled c :: rest)
    | _, _ => none

/-- Arithmetic mean of a list of rationals (`0` on the empty list,
mirroring that the empty case is never consumed). -/
def mean (v : List ℚ) : ℚ :=
  v.sum / v.length

/-- Population variance (`ddof=0`), as used by sklearn `StandardScaler`. -/
def popVar (v : List ℚ) : ℚ :=
  ((v.map (fun x => (x - mean v) ^ 2)).sum) / v.length

/-- Population standard deviation, over the reals. -/
noncomputable def popStd (v : List ℚ) : ℝ :=
  Real.sqrt (popVar v)

/-- sklearn scale: the standard deviation, except that a zero scale
(zero variance) is replaced by 1 (`_handle_zeros_in_scale`), so that
constant columns standardize to 0 instead of dividing by zero. -/
noncomputable def scaleOf (v : List ℚ) : ℝ :=
  if popVar v = 0 then 1 else popStd v

/-- One column of `StandardScaler().fit_transform`: subtract the column
mean, divide by the (zero-protected) population standard deviation. -/
noncomputable def standardizeColumn (v : List ℚ) : List ℝ :=
  v.map (fun (q : ℚ) => ((q : ℝ) - (mean v : ℝ)) / scaleOf v)

/-- Transpose a column-wise real matrix into its `n` rows. -/
def rowsOf (cols : List (List ℝ)) (n : ℕ) : List (List ℝ) :=
  (List.range n).map (fun i => cols.map (fun c => c.getD i 0))

/-- `score.max()` of a non-empty numpy vector (`0` on the empty list;
numpy would raise there, a case `compute_index` never reaches). -/
noncomputable def vmax : List ℝ → ℝ
  | [] => 0
  | x :: xs => xs.foldl max x

/-- `score.min()` of a non-empty numpy vector. -/
noncomputable def vmin : List ℝ → ℝ
  | [] => 0
  | x :: xs => xs.foldl min x

/-- The 1-D score vector before rescaling: the standardized column
itself when exactly one feature column remains (`Xs.shape[1] == 1`),
else the one-component PCA projection of the standardized matrix. -/
noncomputable def scoreVec (X : List (List ℚ)) (n : ℕ)
    (pca : List (List ℝ) → List ℝ) : List ℝ :=
  if X.length = 1 then standardizeColumn (X.headD [])
  else pca (rowsOf (X.map standardizeColumn) n)

/-- `compute_index(df, features)` of `src/indices.py`, parameterised by
the external PCA projection `pca`.  `none` is a raised exception: a
missing feature column (pandas `KeyError`) or an empty table handed to
`StandardScaler.fit_transform`, which requires at least one sample. -/
noncomputable def compute_index (df : DataFrame) (features : Option (List String))
    (pca : List (List ℝ) → List ℝ) : Option (List ℝ) :=
  let fs := selectFeatures df features
  if fs = [] then some (List.replicate df.nrows 0)
  else
    match selectCols df fs with
    | none => none
    | some X =>
      if df.nrows = 0 then none
      else
        let score := scoreVec X df.nrows pca
        if vmax score = vmin score then some (List.replicate df.nrows 0)
        else some (score.map (fun x => (x - vmin score) / (vmax score - vmin score)))

/-- The min-max rescale step of lines 40-42, as a standalone transform
on a score vector: `(score - score.min()) / (score.max() - score.min())`. -/
noncomputable def rescaleStep (v : List ℝ) : List ℝ :=
  v.map (fun x => (x - vmin v) / (vmax v - vmin v))

/-- Dot product of two real vectors. -/
def dot (u v : List ℝ) : ℝ :=
  (List.zipWith (· * ·) u v).sum

/-- Mean of a real vector. -/
noncomputable def rmean (v : List ℝ) : ℝ :=
  v.sum / v.length

/-- Population variance of a real vector. -/
noncomputable def rvar (v : List ℝ) : ℝ :=
  ((v.map (fun x => (x - rmean v) ^ 2)).sum) / v.length

/-- Modelled from the spec: the contract of the external one-component
PCA (`PCA(n_components=1).fit_transform`), whose code is not part of
the repository.  `s` is a first-principal-component score vector for
the (already column-centred) row matrix `rows` when it is the
projection of the rows onto a unit axis `w` that maximizes the variance
of the projected values; the spec leaves the sign of the axis
unspecified ("not separately canonicalized"). -/
def IsFirstPCScore (rows : List (List ℝ)) (s : List ℝ) : Prop :=
  ∃ w : List ℝ,
    (∀ r ∈ rows, r.length = w.length) ∧
    dot w w = 1 ∧
    (∀ u : List ℝ, u.length = w.length → dot u u = 1 →
      rvar (rows.map (fun r => dot r u)) ≤ rvar (rows.map (fun r => dot r w))) ∧
    s = rows.map (fun r => dot r w)

/-- Two score vectors put the rows in the same rank order: strict
comparisons between row positions agree. -/
def SameRank (u v : List ℝ) : Prop :=
  ∀ i j : ℕ, i < u.length → j < u.length →
    (u.getD i 0 < u.getD j 0 ↔ v.getD i 0 < v.getD j 0)

/-- Two score vectors put the rows in reversed rank order. -/
def RevRank (u v : List ℝ) : Prop :=
  ∀ i j : ℕ, i < u.length → j < u.length →
    (u.getD i 0 < u.getD j 0 ↔ v.getD j 0 < v.getD i 0)

/-! ### Helper lemmas on folds, means and variances -/

lemma le_foldl_max (a : ℝ) (l : List ℝ) : a ≤ l.foldl max a := by
  induction l generalizing a with
  | nil => exact le_rfl
  | cons b l ih => exact le_trans (le_max_left a b) (ih (max a b))

lemma foldl_max_le_of_mem {l : List ℝ} {y : ℝ} (a : ℝ) (hy : y ∈ l) :
    y ≤ l.foldl max a := by
  induction l generalizing a with
  | nil => cases hy
  | cons b l ih =>
    rcases List.mem_cons.mp hy with h | h
    · subst h
      exact le_trans (le_max_right a y) (le_foldl_max _ _)
    · exact ih _ h

lemma foldl_max_mem (l : List ℝ) (a : ℝ) : l.foldl max a ∈ a :: l := by
  induction l generalizing a with
  | nil => simp
  | cons b l ih =>
    have h := ih (max a b)
    rcases List.mem_cons.mp h with h | h
    · rcases max_choice a b with hc | hc <;> rw [List.foldl_cons, h, hc]
      · exact List.mem_cons_self _ _
      · exact List.mem_cons_of_mem _ (List.mem_cons_self _ _)
    · exact List.mem_cons_of_mem _ (List.mem_cons_of_mem _ h)

lemma foldl_min_le (a : ℝ) (l : List ℝ) : l.foldl min a ≤ a := by
  induction l generalizing a with
  | nil => exact le_rfl
  | cons b l ih => exact le_trans (ih (min a b)) (min_le_left a b)

lemma foldl_min_le_of_mem {l : List ℝ} {y : ℝ} (a : ℝ) (hy : y ∈ l) :
    l.foldl min a ≤ y := by
  induction l generalizing a with
  | nil => cases hy
  | cons b l ih =>
    rcases List.mem_cons.mp hy with h | h
    · subst h
      rw [List.foldl_cons]
      exact le_trans (foldl_min_le (min a y) l) (min_le_right a y)
    · exact ih _ h

lemma foldl_min_mem (l : List ℝ) (a : ℝ) : l.foldl min a ∈ a :: l := by
  induction l generalizing a with
  | nil => simp
  | cons b l ih =>
    have h := ih (min a b)
    rcases List.mem_cons.mp h with h | h
    · rcases min_choice a b with hc | hc <;> rw [List.foldl_cons, h, hc]
      · exact List.mem_cons_self _ _
      · exact List.mem_cons_of_mem _ (List.mem_cons_self _ _)
    · exact List.mem_cons_of_mem _ (List.mem_cons_of_mem _ h)

lemma le_vmax {v : List ℝ} {y : ℝ} (hy : y ∈ v) : y ≤ vmax v := by
  cases v with
  | nil => cases hy
  | cons x xs =>
    rcases List.mem_cons.mp hy with h | h
    · subst h
      exact le_foldl_max _ _
    · exact foldl_max_le_of_mem _ h

lemma vmax_mem {v : List ℝ} (hv : v ≠ []) : vmax v ∈ v := by
  cases v with
  | nil => exact absurd rfl hv
  | cons x xs => exact foldl_max_mem xs x

lemma vmin_le {v : List ℝ} {y : ℝ} (hy : y ∈ v) : vmin v ≤ y := by
  cases v with
  | nil => cases hy
  | cons x xs =>
    rcases List.mem_cons.mp hy with h | h
    · subst h
      exact foldl_min_le _ _
    · exact foldl_min_le_of_mem _ h

lemma vmin_mem {v : List ℝ} (hv : v ≠ []) : vmin v ∈ v := by
  cases v with
  | nil => exact absurd rfl hv
  | cons x xs => exact foldl_min_mem xs x

lemma foldl_max_map_monotone {f : ℝ → ℝ} (hf : Monotone f) (a : ℝ) (l : List ℝ) :
    (l.map f).foldl max (f a) = f (l.foldl max a) := by
  induction l generalizing a with
  | nil => rfl
  | cons b l ih =>
    simp only [List.map_cons, List.foldl_cons, ← hf.map_max]
    exact ih (max a b)

lemma foldl_min_map_monotone {f : ℝ → ℝ} (hf : Monotone f) (a : ℝ) (l : List ℝ) :
    (l.map f).foldl min (f a) = f (l.foldl min a) := by
  induction l generalizing a with
  | nil => rfl
  | cons b l ih =>
    simp only [List.map_cons, List.foldl_cons, ← hf.map_min]
    exact ih (min a b)

lemma vmax_map_monotone {f : ℝ → ℝ} (hf : Monotone f) (v : List ℝ) :
    vmax (v.map f) = if v = [] then 0 else f (vmax v) := by
  cases v with
  | nil => rfl
  | cons x xs =>
    simp only [List.map_cons, if_neg (List.cons_ne_nil x xs)]
    exact foldl_max_map_monotone hf x xs

lemma vmin_map_monotone {f : ℝ → ℝ} (hf : Monotone f) (v : List ℝ) :
    vmin (v.map f) = if v = [] then 0 else f (vmin v) := by
  cases v with
  | nil => rfl
  | cons x xs =>
    simp only [List.map_cons, if_neg (List.cons_ne_nil x xs)]
    exact foldl_min_map_monotone hf x xs

lemma vmax_const {v : List ℝ} {c : ℝ} (hv : v ≠ []) (h : ∀ y ∈ v, y = c) :
    vmax v = c :=
  h _ (vmax_mem hv)

lemma vmin_const {v : List ℝ} {c : ℝ} (hv : v ≠ []) (h : ∀ y ∈ v, y = c) :
    vmin v = c :=
  h _ (vmin_mem hv)

lemma vmin_le_vmax {v : List ℝ} (hv : v ≠ []) : vmin v ≤ vmax v :=
  le_trans (vmin_le (vmax_mem hv)) le_rfl

lemma mean_const {v : List ℚ} {a : ℚ} (hv : v ≠ []) (h : ∀ x ∈ v, x = a) :
    mean v = a := by
  have hs : v.sum = v.length • a := List.sum_eq_card_nsmul v a h
  have hn : (v.length : ℚ) ≠ 0 := by
    exact_mod_cast Nat.cast_ne_zero.mpr (List.length_pos.mpr hv).ne'
  rw [mean, hs, nsmul_eq_mul, mul_comm, mul_div_assoc, div_self hn, mul_one]

lemma popVar_const {v : List ℚ} {a : ℚ} (h : ∀ x ∈ v, x = a) :
    popVar v = 0 := by
  cases v with
  | nil => simp [popVar]
  | cons x xs =>
    have hm : mean (x :: xs) = a := mean_const (List.cons_ne_nil x xs) h
    have : ((x :: xs).map (fun y => (y - mean (x :: xs)) ^ 2)).sum = 0 := by
      apply List.sum_eq_zero
      intro y hy
      rcases List.mem_map.mp hy with ⟨z, hz, rfl⟩
      rw [hm, h z hz, sub_self]
      ring
    rw [popVar, this, zero_div]

lemma popVar_nonneg (v : List ℚ) : 0 ≤ popVar v := by
  apply div_nonneg
  · apply List.sum_nonneg
    intro x hx
    rcases List.mem_map.mp hx with ⟨z, _, rfl⟩
    positivity
  · exact_mod_cast Nat.zero_le _

lemma sum_eq_zero_of_nonneg {l : List ℚ} (h : ∀ x ∈ l, 0 ≤ x) (hs : l.sum = 0) :
    ∀ x ∈ l, x = 0 := by
  induction l with
  | nil => intro x hx; cases hx
  | cons a l ih =>
    have ha : 0 ≤ a := h a (List.mem_cons_self _ _)
    have hl : 0 ≤ l.sum := List.sum_nonneg (fun x hx => h x (List.mem_cons_of_mem _ hx))
    rw [List.sum_cons] at hs
    have h0 : a = 0 ∧ l.sum = 0 := (add_eq_zero_iff_of_nonneg ha hl).mp hs
    intro x hx
    rcases List.mem_cons.mp hx with rfl | hx
    · exact h0.1
    · exact ih (fun y hy => h y (List.mem_cons_of_mem _ hy)) h0.2 x hx

lemma eq_mean_of_popVar_eq_zero {v : List ℚ} (hv : v ≠ []) (h : popVar v = 0) :
    ∀ x ∈ v, x = mean v := by
  have hn : (v.length : ℚ) ≠ 0 := by
    exact_mod_cast Nat.cast_ne_zero.mpr (List.length_pos.mpr hv).ne'
  have hs : ((v.map (fun x => (x - mean v) ^ 2)).sum) = 0 := by
    have := h
    rw [popVar, div_eq_zero_iff] at this
    exact this.resolve_right hn
  intro x hx
  have := sum_eq_zero_of_nonneg (l := v.map (fun x => (x - mean v) ^ 2))
    (by intro y hy; rcases List.mem_map.mp hy with ⟨z, _, rfl⟩; positivity) hs
    ((x - mean v) ^ 2) (List.mem_map_of_mem _ hx)
  have hx0 : x - mean v = 0 := by
    exact pow_eq_zero_iff (n := 2) (by norm_num) |>.mp this
  linarith

lemma popVar_pos {v : List ℚ} {a b : ℚ} (ha : a ∈ v) (hb : b ∈ v) (hab : a ≠ b) :
    0 < popVar v := by
  rcases lt_or_eq_of_le (popVar_nonneg v) with h | h
  · exact h
  · exfalso
    have hv : v ≠ [] := List.ne_nil_of_mem ha
    have h1 := eq_mean_of_popVar_eq_zero hv h.symm a ha
    have h2 := eq_mean_of_popVar_eq_zero hv h.symm b hb
    exact hab (h1.trans h2.symm)

lemma scaleOf_pos (v : List ℚ) : 0 < scaleOf v := by
  rw [scaleOf]
  split
  · exact one_pos
  · rename_i h
    have : (0 : ℚ) < popVar v := lt_of_le_of_ne (popVar_nonneg v) (Ne.symm h)
    exact Real.sqrt_pos.mpr (by exact_mod_cast this)

lemma scaleOf_of_pos {v : List ℚ} (h : 0 < popVar v) : scaleOf v = popStd v := by
  rw [scaleOf, if_neg h.ne']

/-- A constant column standardizes to all-zero without dividing by zero. -/
lemma standardizeColumn_const {v : List ℚ} {a : ℚ} (h : ∀ x ∈ v, x = a) :
    standardizeColumn v = List.replicate v.length 0 := by
  cases v with
  | nil => rfl
  | cons x xs =>
    apply List.eq_replicate_iff.mpr
    constructor
    · simp only [standardizeColumn, List.length_map]
    · intro b hb
      rw [standardizeColumn] at hb
      rcases List.mem_map.mp hb with ⟨z, hz, rfl⟩
      rw [mean_const (List.cons_ne_nil x xs) h, h z hz, sub_self, zero_div]

/-! ### Branch lemmas for `compute_index` -/

lemma compute_index_empty_fs {df : DataFrame} {features : Option (List String)}
    (pca : List (List ℝ) → List ℝ) (h : selectFeatures df features = []) :
    compute_index df features pca = some (List.replicate df.nrows 0) := by
  rw [compute_index]
  simp [h]

lemma compute_index_keyerror {df : DataFrame} {features : Option (List String)}
    (pca : List (List ℝ) → List ℝ) (h1 : selectFeatures df features ≠ [])
    (h2 : selectCols df (selectFeatures df features) = none) :
    compute_index df features pca = none := by
  rw [compute_index]
  simp only [if_neg h1, h2]

lemma compute_index_zero_rows {df : DataFrame} {features : Option (List String)}
    {X : List (List ℚ)} (pca : List (List ℝ) → List ℝ)
    (h1 : selectFeatures df features ≠ [])
    (h2 : selectCols df (selectFeatures df features) = some X)
    (h3 : df.nrows = 0) :
    compute_index df features pca = none := by
  rw [compute_index]
  simp only [if_neg h1, h2, if_pos h3]

lemma compute_index_degenerate {df : DataFrame} {features : Option (List String)}
    {X : List (List ℚ)} (pca : List (List ℝ) → List ℝ)
    (h1 : selectFeatures df features ≠ [])
    (h2 : selectCols df (selectFeatures df features) = some X)
    (h3 : df.nrows ≠ 0)
    (h4 : vmax (scoreVec X df.nrows pca) = vmin (scoreVec X df.nrows pca)) :
    compute_index df features pca = some (List.replicate df.nrows 0) := by
  rw [compute_index]
  simp only [if_neg h1, h2, if_neg h3, if_pos h4]

lemma compute_index_rescale {df : DataFrame} {features : Option (List String)}
    {X : List (List ℚ)} (pca : List (List ℝ) → List ℝ)
    (h1 : selectFeatures df features ≠ [])
    (h2 : selectCols df (selectFeatures df features) = some X)
    (h3 : df.nrows ≠ 0)
    (h4 : vmax (scoreVec X df.nrows pca) ≠ vmin (scoreVec X df.nrows pca)) :
    compute_index df features pca =
      some ((scoreVec X df.nrows pca).map (fun x =>
        (x - vmin (scoreVec X df.nrows pca)) /
          (vmax (scoreVec X df.nrows pca) - vmin (scoreVec X df.nrows pca)))) := by
  rw [compute_index]
  simp only [if_neg h1, h2, if_neg h3, if_neg h4]

/-! ### Facts about `selectCols` -/

lemma selectCols_isSome {df : DataFrame} {ns : List String}
    (h : ∀ n ∈ ns, (getCol df n).isSome) : ∃ X, selectCols df ns = some X := by
  induction ns with
  | nil => exact ⟨[], rfl⟩
  | cons n ns ih =>
    rcases Option.isSome_iff_exists.mp (h n (List.mem_cons_self _ _)) with ⟨c, hc⟩
    rcases ih (fun m hm => h m (List.mem_cons_of_mem _ hm)) with ⟨X, hX⟩
    exact ⟨filled c :: X, by rw [selectCols, hc, hX]⟩

lemma selectCols_length {df : DataFrame} {ns : List String} {X : List (List ℚ)}
    (h : selectCols df ns = some X) : X.length = ns.length := by
  induction ns generalizing X with
  | nil =>
    rw [selectCols] at h
    cases h
    rfl
  | cons n ns ih =>
    rw [selectCols] at h
    rcases hc : getCol df n with _ | c <;> rw [hc] at h
    · cases h
    · rcases hr : selectCols df ns with _ | rest <;> rw [hr] at h
      · cases h
      · cases h
        simp [ih hr]

lemma selectCols_cols {df : DataFrame} {ns : List String} {X : List (List ℚ)}
    (h : selectCols df ns = some X) :
    ∀ col ∈ X, ∃ c ∈ df.cols, col = filled c := by
  induction ns generalizing X with
  | nil =>
    rw [selectCols] at h
    cases h
    intro col hcol
    cases hcol
  | cons n ns ih =>
    rw [selectCols] at h
    rcases hc : getCol df n with _ | c <;> rw [hc] at h
    · cases h
    · rcases hr : selectCols df ns with _ | rest <;> rw [hr] at h
      · cases h
      · cases h
        intro col hcol
        rcases List.mem_cons.mp hcol with rfl | hcol
        · exact ⟨c, List.mem_of_find?_eq_some hc, rfl⟩
        · exact ih hr col hcol

lemma selectCols_col_length {df : DataFrame} {ns : List String} {X : List (List ℚ)}
    (hwf : df.WF) (h : selectCols df ns = some X) :
    ∀ col ∈ X, col.length = df.nrows := by
  intro col hcol
  rcases selectCols_cols h col hcol with ⟨c, hc, rfl⟩
  rw [filled, List.length_map]
  exact hwf c hc

lemma scoreVec_length {X : List (List ℚ)} {n : ℕ} {pca : List (List ℝ) → List ℝ}
    (hlen : ∀ rows, (pca rows).length = rows.length)
    (hcols : ∀ col ∈ X, col.length = n) (hX : X ≠ []) :
    (scoreVec X n pca).length = n := by
  rw [scoreVec]
  split
  · rename_i h1
    rcases List.length_eq_one.mp h1 with ⟨c, rfl⟩
    rw [List.headD_cons, standardizeColumn, List.length_map]
    exact hcols c (List.mem_singleton_self c)
  · rw [hlen, rowsOf, List.length_map, List.length_range]

/-! ### Concrete instances used to witness the claims -/

/-- A trivially length-preserving projection, standing in for the
external PCA in witnesses whose branch never reaches it. -/
def pcaZero : List (List ℝ) → List ℝ := fun rows => rows.map (fun _ => 0)

/-- Three rows, a single non-numeric column (spec scenario C). -/
def dfNoNum : DataFrame := ⟨3, [⟨"municipio", false, [none, none, none]⟩]⟩

/-- Zero rows, one numeric column. -/
def dfEmptyRows : DataFrame := ⟨0, [⟨"populacao", true, []⟩]⟩

/-- One row, one numeric column. -/
def dfOneRow : DataFrame := ⟨1, [⟨"a", true, [some 1]⟩]⟩

/-- Three rows, one numeric column holding 10, 20, 30 (spec scenario A). -/
def dfA : DataFrame := ⟨3, [⟨"v", true, [some 10, some 20, some 30]⟩]⟩

/-- Three rows, one numeric column holding 5, 5, 5 (spec scenario B). -/
def dfB : DataFrame := ⟨3, [⟨"v", true, [some 5, some 5, some 5]⟩]⟩

/-! ### The claims -/

/-- C5: if no numeric attribute columns exist and no features were
passed explicitly, `compute_index` returns a score of 0.0 for every
row — a vector of 0.0 whose length equals the row count — without
failure. -/
theorem C5_empty_features_all_zero (df : DataFrame)
    (pca : List (List ℝ) → List ℝ)
    (h : ∀ c ∈ df.cols, c.numeric = false) :
    compute_index df none pca = some (List.replicate df.nrows 0) := by
  apply compute_index_empty_fs
  rw [selectFeatures, Option.getD_none, numericFeatures]
  rw [List.filter_eq_nil_iff.mpr (by intro c hc; simp [h c hc])]
  rfl

/-- Witness for C5 at scenario C: a three-row table with a single
non-numeric column yields scores `[0, 0, 0]`. -/
theorem C5_empty_features_all_zero_witness :
    compute_index dfNoNum none pcaZero = some (List.replicate 3 0) :=
  C5_empty_features_all_zero dfNoNum pcaZero (by decide)

/-- C2: whenever `compute_index` returns a result (on any branch:
empty feature set, single feature, PCA, degenerate constant score),
that result has exactly one score per input row. -/
theorem C2_row_count_preserved (df : DataFrame) (features : Option (List String))
    (pca : List (List ℝ) → List ℝ) (hwf : df.WF)
    (hlen : ∀ rows, (pca rows).length = rows.length)
    (out : List ℝ) (h : compute_index df features pca = some out) :
    out.length = df.nrows := by
  by_cases hfs : selectFeatures df features = []
  · rw [compute_index_empty_fs pca hfs] at h
    cases h
    exact List.length_replicate _ _
  · rcases hsel : selectCols df (selectFeatures df features) with _ | X
    · rw [compute_index_keyerror pca hfs hsel] at h
      cases h
    · by_cases hn : df.nrows = 0
      · rw [compute_index_zero_rows pca hfs hsel hn] at h
        cases h
      · have hXne : X ≠ [] := by
          intro hX0
          apply hfs
          have := selectCols_length hsel
          rw [hX0] at this
          exact (List.length_eq_zero.mp this.symm)
        by_cases hd : vmax (scoreVec X df.nrows pca) = vmin (scoreVec X df.nrows pca)
        · rw [compute_index_degenerate pca hfs hsel hn hd] at h
          cases h
          exact List.length_replicate _ _
        · rw [compute_index_rescale pca hfs hsel hn hd] at h
          cases h
          rw [List.length_map]
          exact scoreVec_length hlen (selectCols_col_length hwf hsel) hXne

/-- Witness for C2 on a concrete table. -/
theorem C2_row_count_preserved_witness :
    (List.replicate 3 (0 : ℝ)).length = dfNoNum.nrows :=
  C2_row_count_preserved dfNoNum none pcaZero
    (by intro c hc; rw [List.mem_singleton.mp hc]; rfl)
    (fun rows => List.length_map rows _)
    (List.replicate 3 0)
    (compute_index_empty_fs pcaZero (by decide))

/-- C1 (amended): `compute_index` returns a defined output for every
table whose selected feature names are all present, EXCEPT when the
table has zero rows and the selected feature set is non-empty — there
the standardizer requires at least one sample and raises.  (Zero rows
with zero selected features still returns a defined empty output.) -/
theorem C1_total_except_empty_table (df : DataFrame)
    (features : Option (List String)) (pca : List (List ℝ) → List ℝ)
    (hvalid : ∀ n ∈ selectFeatures df features, (getCol df n).isSome)
    (h : selectFeatures df features = [] ∨ df.nrows ≠ 0) :
    (compute_index df features pca).isSome := by
  by_cases hfs : selectFeatures df features = []
  · rw [compute_index_empty_fs pca hfs]
    rfl
  · rcases selectCols_isSome hvalid with ⟨X, hX⟩
    have hn : df.nrows ≠ 0 := h.resolve_left hfs
    by_cases hd : vmax (scoreVec X df.nrows pca) = vmin (scoreVec X df.nrows pca)
    · rw [compute_index_degenerate pca hfs hX hn hd]
      rfl
    · rw [compute_index_rescale pca hfs hX hn hd]
      rfl

/-- Witness for C1's amended statement at a one-row table. -/
theorem C1_total_except_empty_table_witness :
    (compute_index dfOneRow none pcaZero).isSome :=
  C1_total_except_empty_table dfOneRow none pcaZero (by decide)
    (Or.inr (by decide))

/-- Counterexample to C1 as stated: on the table with zero rows and one
numeric feature column, `compute_index` raises (sklearn
`StandardScaler.fit_transform` requires at least one sample) instead of
returning an empty output. -/
theorem C1_zero_rows_raises :
    compute_index dfEmptyRows none pcaZero = none := by
  apply compute_index_zero_rows pcaZero (X := [[]]) (by decide) _ rfl
  rfl

/-- C6: in any table with at least one row, a selected feature column
whose (filled) values are all equal standardizes to all-zero entries
without raising — the division by the zero standard deviation is
avoided — whatever other features are selected alongside it; and when
it is the only selected feature, `compute_index` returns 0.0 for every
row. -/
theorem C6_zero_variance_column (df : DataFrame) (features : Option (List String))
    (pca : List (List ℝ) → List ℝ) (n : String) (c : Column) (a : ℚ)
    (_hmem : n ∈ selectFeatures df features)
    (hc : getCol df n = some c)
    (hconst : ∀ x ∈ filled c, x = a)
    (hn : df.nrows ≠ 0) :
    standardizeColumn (filled c) = List.replicate (filled c).length 0 ∧
    (selectFeatures df features = [n] →
      compute_index df features pca = some (List.replicate df.nrows 0)) := by
  refine ⟨standardizeColumn_const hconst, ?_⟩
  intro hfs
  have hsel : selectCols df (selectFeatures df features) = some [filled c] := by
    rw [hfs, selectCols, hc]
    rfl
  have hscore : scoreVec [filled c] df.nrows pca = List.replicate (filled c).length 0 := by
    rw [scoreVec, if_pos (show ([filled c] : List (List ℚ)).length = 1 from rfl),
      List.headD_cons]
    exact standardizeColumn_const hconst
  have hdeg : vmax (scoreVec [filled c] df.nrows pca) =
      vmin (scoreVec [filled c] df.nrows pca) := by
    rw [hscore]
    cases hl : (filled c).length with
    | zero => rfl
    | succ m =>
      have hne : List.replicate (m + 1) (0 : ℝ) ≠ [] := by simp
      rw [vmax_const hne (fun y hy => List.eq_of_mem_replicate hy),
        vmin_const hne (fun y hy => List.eq_of_mem_replicate hy)]
  exact compute_index_degenerate pca (by rw [hfs]; simp) hsel hn hdeg

/-- Witness for C6 at scenario B: the constant column 5, 5, 5
standardizes to zeros, and the index over it is all zeros. -/
theorem C6_zero_variance_column_witness :
    standardizeColumn (filled ⟨"v", true, [some 5, some 5, some 5]⟩) =
      List.replicate (filled ⟨"v", true, [some 5, some 5, some 5]⟩).length 0 ∧
    (selectFeatures dfB none = ["v"] →
      compute_index dfB none pcaZero = some (List.replicate dfB.nrows 0)) :=
  C6_zero_variance_column dfB none pcaZero "v" ⟨"v", true, [some 5, some 5, some 5]⟩ 5
    (by decide) rfl (by decide) (by decide)

/-- C7: with a non-empty feature set, present columns, and at least one
row, `compute_index` tests the pre-rescale score vector: if its maximum
equals its minimum it skips the division and returns 0.0 for every row,
otherwise it returns `(score - min) / (max - min)` per row; a
single-row table (score vector of length one) always falls into the
degenerate branch. -/
theorem C7_degenerate_minmax_guard (df : DataFrame) (features : Option (List String))
    (pca : List (List ℝ) → List ℝ) (X : List (List ℚ))
    (h1 : selectFeatures df features ≠ [])
    (h2 : selectCols df (selectFeatures df features) = some X)
    (h3 : df.nrows ≠ 0) :
    (vmax (scoreVec X df.nrows pca) = vmin (scoreVec X df.nrows pca) →
      compute_index df features pca = some (List.replicate df.nrows 0)) ∧
    (vmax (scoreVec X df.nrows pca) ≠ vmin (scoreVec X df.nrows pca) →
      compute_index df features pca =
        some ((scoreVec X df.nrows pca).map (fun x =>
          (x - vmin (scoreVec X df.nrows pca)) /
            (vmax (scoreVec X df.nrows pca) - vmin (scoreVec X df.nrows pca))))) ∧
    (df.nrows = 1 → df.WF → (∀ rows, (pca rows).length = rows.length) →
      vmax (scoreVec X df.nrows pca) = vmin (scoreVec X df.nrows pca)) := by
  refine ⟨fun hd => compute_index_degenerate pca h1 h2 h3 hd,
    fun hd => compute_index_rescale pca h1 h2 h3 hd, ?_⟩
  intro h1row hwf hlen
  have hXne : X ≠ [] := by
    intro hX0
    apply h1
    have := selectCols_length h2
    rw [hX0] at this
    exact List.length_eq_zero.mp this.symm
  have : (scoreVec X df.nrows pca).length = 1 := by
    rw [scoreVec_length hlen (selectCols_col_length hwf h2) hXne, h1row]
  rcases List.length_eq_one.mp this with ⟨x, hx⟩
  rw [hx]
  rfl

/-- Witness for C7 at scenario B: the constant column puts the score in
the degenerate branch, so the output is all zeros. -/
theorem C7_degenerate_minmax_guard_witness :
    compute_index dfB none pcaZero = some (List.replicate dfB.nrows 0) := by
  apply (C7_degenerate_minmax_guard dfB none pcaZero [[5, 5, 5]]
    (by decide) rfl (by decide)).1
  have hs : scoreVec [[5, 5, 5]] dfB.nrows pcaZero = List.replicate 3 0 := by
    rw [scoreVec, if_pos (show ([[5, 5, 5]] : List (List ℚ)).length = 1 from rfl),
      List.headD_cons]
    have := standardizeColumn_const (v := [5, 5, 5]) (a := 5) (by decide)
    simpa using this
  rw [hs]
  have hne : List.replicate 3 (0 : ℝ) ≠ [] := by simp
  rw [vmax_const hne (fun y hy => List.eq_of_mem_replicate hy),
    vmin_const hne (fun y hy => List.eq_of_mem_replicate hy)]

/-- C9: the min-max rescale step is idempotent on non-degenerate score
vectors: when `min < max`, rescaling an already-rescaled vector changes
nothing. -/
theorem C9_rescale_idempotent (v : List ℝ) (h : vmin v < vmax v) :
    rescaleStep (rescaleStep v) = rescaleStep v := by
  have hne : v ≠ [] := by
    intro h0
    rw [h0] at h
    exact lt_irrefl _ h
  have hd : (0 : ℝ) < vmax v - vmin v := sub_pos.mpr h
  have hf : Monotone (fun x => (x - vmin v) / (vmax v - vmin v)) := by
    intro a b hab
    exact (div_le_div_iff_of_pos_right hd).mpr (sub_le_sub_right hab _)
  have hmax : vmax (rescaleStep v) = 1 := by
    rw [rescaleStep, vmax_map_monotone hf v, if_neg hne, div_self hd.ne']
  have hmin : vmin (rescaleStep v) = 0 := by
    rw [rescaleStep, vmin_map_monotone hf v, if_neg hne, sub_self, zero_div]
  rw [rescaleStep, hmax, hmin]
  simp

/-- Witness for C9 on the vector `[0, 2]`. -/
theorem C9_rescale_idempotent_witness :
    rescaleStep (rescaleStep [0, 2]) = rescaleStep [0, 2] :=
  C9_rescale_idempotent [0, 2] (by norm_num [vmin, vmax])

/-- C10: when `compute_index` takes the non-degenerate rescale branch,
the returned scores attain both endpoints: some row receives exactly 0
and some row exactly 1. -/
theorem C10_endpoints_attained (df : DataFrame) (features : Option (List String))
    (pca : List (List ℝ) → List ℝ) (X : List (List ℚ))
    (h1 : selectFeatures df features ≠ [])
    (h2 : selectCols df (selectFeatures df features) = some X)
    (h3 : df.nrows ≠ 0)
    (h4 : vmax (scoreVec X df.nrows pca) ≠ vmin (scoreVec X df.nrows pca))
    (out : List ℝ) (hout : compute_index df features pca = some out) :
    (0 : ℝ) ∈ out ∧ (1 : ℝ) ∈ out := by
  rw [compute_index_rescale pca h1 h2 h3 h4] at hout
  cases hout
  have hne : scoreVec X df.nrows pca ≠ [] := by
    intro h0
    rw [h0] at h4
    exact h4 rfl
  constructor
  · exact List.mem_map.mpr ⟨vmin (scoreVec X df.nrows pca), vmin_mem hne,
      by rw [sub_self, zero_div]⟩
  · exact List.mem_map.mpr ⟨vmax (scoreVec X df.nrows pca), vmax_mem hne,
      div_self (sub_ne_zero.mpr h4)⟩

/-- Four rows, one numeric column holding 0, 0, 2, 2 (population
variance exactly 1, so it standardizes to -1, -1, 1, 1). -/
def dfHalf : DataFrame := ⟨4, [⟨"w", true, [some 0, some 0, some 2, some 2]⟩]⟩

/-- The column 0, 0, 2, 2 standardizes to -1, -1, 1, 1. -/
lemma standardize_half : standardizeColumn [0, 0, 2, 2] = [-1, -1, 1, 1] := by
  have hm : mean [0, 0, 2, 2] = 1 := by
    norm_num [mean]
  have hv : popVar [0, 0, 2, 2] = 1 := by
    norm_num [popVar, hm]
  have hs : scaleOf [0, 0, 2, 2] = 1 := by
    rw [scaleOf, if_neg (by rw [hv]; norm_num), popStd, hv]
    norm_num
  rw [standardizeColumn, hm, hs]
  norm_num

/-- The score vector of `dfHalf` is the standardized column. -/
lemma scoreVec_half (pca : List (List ℝ) → List ℝ) :
    scoreVec [[0, 0, 2, 2]] dfHalf.nrows pca = [-1, -1, 1, 1] := by
  rw [scoreVec, if_pos (show ([[0, 0, 2, 2]] : List (List ℚ)).length = 1 from rfl),
    List.headD_cons]
  exact standardize_half

/-- `compute_index` on `dfHalf` rescales -1, -1, 1, 1 to 0, 0, 1, 1. -/
lemma compute_index_half :
    compute_index dfHalf none pcaZero = some [0, 0, 1, 1] := by
  have hmax : vmax (scoreVec [[0, 0, 2, 2]] dfHalf.nrows pcaZero) = 1 := by
    rw [scoreVec_half]
    norm_num [vmax]
  have hmin : vmin (scoreVec [[0, 0, 2, 2]] dfHalf.nrows pcaZero) = -1 := by
    rw [scoreVec_half]
    norm_num [vmin]
  rw [compute_index_rescale pcaZero (by decide)
    (show selectCols dfHalf (selectFeatures dfHalf none) = some [[0, 0, 2, 2]] from rfl)
    (by decide) (by rw [hmax, hmin]; norm_num)]
  rw [hmax, hmin, scoreVec_half]
  norm_num

/-- Witness for C10 on `dfHalf`: the output `[0, 0, 1, 1]` contains
both 0 and 1. -/
theorem C10_endpoints_attained_witness :
    (0 : ℝ) ∈ ([0, 0, 1, 1] : List ℝ) ∧ (1 : ℝ) ∈ ([0, 0, 1, 1] : List ℝ) :=
  C10_endpoints_attained dfHalf none pcaZero [[0, 0, 2, 2]]
    (by decide)
    (show selectCols dfHalf (selectFeatures dfHalf none) = some [[0, 0, 2, 2]] from rfl)
    (by decide)
    (by rw [scoreVec_half]; norm_num [vmax, vmin])
    [0, 0, 1, 1] compute_index_half

/-! ### Positional access lemmas -/

lemma getD_replicate_zero (n i : ℕ) : (List.replicate n (0 : ℝ)).getD i 0 = 0 := by
  induction n generalizing i with
  | zero => cases i <;> rfl
  | succ m ih =>
    cases i with
    | zero => rfl
    | succ k => exact ih k

lemma standardizeColumn_getD {v : List ℚ} {i : ℕ} (hi : i < v.length) :
    (standardizeColumn v).getD i 0 =
      ((v.getD i 0 : ℚ) : ℝ) / scaleOf v - ((mean v : ℚ) : ℝ) / scaleOf v := by
  rw [standardizeColumn,
    List.getD_eq_getElem _ _ (by simpa using hi),
    List.getElem_map, List.getD_eq_getElem _ _ hi, sub_div]

lemma getD_map_sub_div {z : List ℝ} {m d : ℝ} {i : ℕ} (hi : i < z.length) :
    ((z.map (fun x => (x - m) / d)).getD i 0) = (z.getD i 0 - m) / d := by
  rw [List.getD_eq_getElem _ _ (by simpa using hi),
    List.getElem_map, List.getD_eq_getElem _ _ hi]

lemma getD_mem {z : List ℝ} {i : ℕ} (hi : i < z.length) : z.getD i 0 ∈ z := by
  rw [List.getD_eq_getElem _ _ hi]
  exact List.getElem_mem _

/-- Entrywise strict monotonicity of standardization. -/
lemma standardizeColumn_lt {v : List ℚ} {i j : ℕ}
    (hi : i < v.length) (hj : j < v.length)
    (hx : v.getD i 0 < v.getD j 0) :
    (standardizeColumn v).getD i 0 < (standardizeColumn v).getD j 0 := by
  rw [standardizeColumn_getD hi, standardizeColumn_getD hj]
  have hcast : ((v.getD i 0 : ℚ) : ℝ) < ((v.getD j 0 : ℚ) : ℝ) := by exact_mod_cast hx
  have := (div_lt_div_iff_of_pos_right (scaleOf_pos v)).mpr hcast
  linarith

/-- C8: with exactly one selected feature column, the output is
monotonic in that column's (filled) values: positions with equal input
values get equal scores, and a strictly increasing input column gives
strictly increasing scores. -/
theorem C8_single_feature_monotone (df : DataFrame) (features : Option (List String))
    (pca : List (List ℝ) → List ℝ) (n : String) (c : Column)
    (hfs : selectFeatures df features = [n])
    (hc : getCol df n = some c)
    (out : List ℝ) (hout : compute_index df features pca = some out) :
    (∀ i j : ℕ, i < (filled c).length → j < (filled c).length →
        (filled c).getD i 0 = (filled c).getD j 0 →
        out.getD i 0 = out.getD j 0) ∧
    (List.Pairwise (· < ·) (filled c) →
      ∀ i j : ℕ, i < j → j < (filled c).length →
        out.getD i 0 < out.getD j 0) := by
  have hfs1 : selectFeatures df features ≠ [] := by
    rw [hfs]
    simp
  have hsel : selectCols df (selectFeatures df features) = some [filled c] := by
    rw [hfs, selectCols, hc]
    rfl
  have hn : df.nrows ≠ 0 := by
    intro h0
    rw [compute_index_zero_rows pca hfs1 hsel h0] at hout
    cases hout
  have hz : scoreVec [filled c] df.nrows pca = standardizeColumn (filled c) := by
    rw [scoreVec, if_pos (show ([filled c] : List (List ℚ)).length = 1 from rfl),
      List.headD_cons]
  have hzlen : (standardizeColumn (filled c)).length = (filled c).length := by
    rw [standardizeColumn, List.length_map]
  have hpairs : List.Pairwise (· < ·) (filled c) →
      ∀ i j : ℕ, i < j → j < (filled c).length →
      (filled c).getD i 0 < (filled c).getD j 0 := by
    intro hpw i j hij hj
    have hi : i < (filled c).length := lt_trans hij hj
    have := List.pairwise_iff_get.mp hpw ⟨i, hi⟩ ⟨j, hj⟩ hij
    rw [List.getD_eq_getElem _ _ hi, List.getD_eq_getElem _ _ hj]
    simpa [List.get_eq_getElem] using this
  by_cases hd : vmax (scoreVec [filled c] df.nrows pca) =
      vmin (scoreVec [filled c] df.nrows pca)
  · rw [compute_index_degenerate pca hfs1 hsel hn hd] at hout
    cases hout
    constructor
    · intro i j _ _ _
      rw [getD_replicate_zero, getD_replicate_zero]
    · intro hpw i j hij hj
      exfalso
      have hi : i < (filled c).length := lt_trans hij hj
      have hlt := standardizeColumn_lt hi hj (hpairs hpw i j hij hj)
      rw [hz] at hd
      have h1 := vmin_le (getD_mem (z := standardizeColumn (filled c)) (by rwa [hzlen]))
      have h2 := le_vmax (getD_mem (z := standardizeColumn (filled c)) (i := j) (by rwa [hzlen]))
      rw [hd] at h2
      exact absurd (lt_of_le_of_lt h1 (lt_of_lt_of_le hlt h2)) (lt_irrefl _)
  · rw [compute_index_rescale pca hfs1 hsel hn hd] at hout
    cases hout
    rw [hz] at hd ⊢
    have hzne : standardizeColumn (filled c) ≠ [] := by
      intro h0
      rw [h0] at hd
      exact hd rfl
    have hlt : vmin (standardizeColumn (filled c)) < vmax (standardizeColumn (filled c)) :=
      lt_of_le_of_ne (vmin_le_vmax hzne) (Ne.symm hd)
    have hdpos : (0 : ℝ) < vmax (standardizeColumn (filled c)) -
        vmin (standardizeColumn (filled c)) := sub_pos.mpr hlt
    constructor
    · intro i j hi hj hx
      rw [getD_map_sub_div (by rwa [hzlen]), getD_map_sub_div (by rwa [hzlen]),
        standardizeColumn_getD hi, standardizeColumn_getD hj, hx]
    · intro hpw i j hij hj
      have hi : i < (filled c).length := lt_trans hij hj
      rw [getD_map_sub_div (by rwa [hzlen]), getD_map_sub_div (by rwa [hzlen])]
      apply (div_lt_div_iff_of_pos_right hdpos).mpr
      have := standardizeColumn_lt hi hj (hpairs hpw i j hij hj)
      linarith

/-- Four rows, one numeric column holding 0, 3, 4, 7 (population
variance 25/4, so the standard deviation 5/2 is rational). -/
def dfMono : DataFrame := ⟨4, [⟨"m", true, [some 0, some 3, some 4, some 7]⟩]⟩

/-- The column 0, 3, 4, 7 standardizes to -7/5, -1/5, 1/5, 7/5. -/
lemma standardize_mono :
    standardizeColumn [0, 3, 4, 7] = [-(7 / 5), -(1 / 5), 1 / 5, 7 / 5] := by
  have hm : mean [0, 3, 4, 7] = 7 / 2 := by
    norm_num [mean]
  have hv : popVar [0, 3, 4, 7] = 25 / 4 := by
    norm_num [popVar, hm]
  have hs : scaleOf [0, 3, 4, 7] = 5 / 2 := by
    rw [scaleOf, if_neg (by rw [hv]; norm_num), popStd, hv]
    rw [show (((25 / 4 : ℚ) : ℝ)) = (5 / 2) ^ 2 by norm_num]
    exact Real.sqrt_sq (by norm_num)
  rw [standardizeColumn, hm, hs]
  norm_num

/-- `compute_index` on `dfMono` returns 0, 3/7, 4/7, 1. -/
lemma compute_index_mono :
    compute_index dfMono none pcaZero = some [0, 3 / 7, 4 / 7, 1] := by
  have hsv : scoreVec [[0, 3, 4, 7]] dfMono.nrows pcaZero =
      [-(7 / 5), -(1 / 5), 1 / 5, 7 / 5] := by
    rw [scoreVec, if_pos (show ([[0, 3, 4, 7]] : List (List ℚ)).length = 1 from rfl),
      List.headD_cons]
    exact standardize_mono
  have hmax : vmax (scoreVec [[0, 3, 4, 7]] dfMono.nrows pcaZero) = 7 / 5 := by
    rw [hsv]
    norm_num [vmax]
  have hmin : vmin (scoreVec [[0, 3, 4, 7]] dfMono.nrows pcaZero) = -(7 / 5) := by
    rw [hsv]
    norm_num [vmin]
  rw [compute_index_rescale pcaZero (by decide)
    (show selectCols dfMono (selectFeatures dfMono none) = some [[0, 3, 4, 7]] from rfl)
    (by decide) (by rw [hmax, hmin]; norm_num)]
  rw [hmax, hmin, hsv]
  norm_num

/-- Witness for C8 on `dfMono`: the input column is strictly
increasing, and score 0 at row 0 is below score 3/7 at row 1. -/
theorem C8_single_feature_monotone_witness :
    ([0, 3 / 7, 4 / 7, 1] : List ℝ).getD 0 0 < ([0, 3 / 7, 4 / 7, 1] : List ℝ).getD 1 0 :=
  (C8_single_feature_monotone dfMono none pcaZero "m"
      ⟨"m", true, [some 0, some 3, some 4, some 7]⟩
      (by decide) rfl [0, 3 / 7, 4 / 7, 1] compute_index_mono).2
    (by decide) 0 1 (by decide) (by decide)

/-- Counterexample to C3 as stated: the column-wise standardization of
10, 20, 30 with the population standard deviation does NOT produce
-1, 0, 1 (that would be the sample standard deviation); its first entry
is -10 / sqrt(200/3) ≈ -1.2247. -/
theorem C3_population_std_not_unit :
    standardizeColumn [10, 20, 30] ≠ [-1, 0, 1] := by
  intro h
  have hm : mean [10, 20, 30] = 20 := by norm_num [mean]
  have hv : popVar [10, 20, 30] = 200 / 3 := by norm_num [popVar, hm]
  have hs : scaleOf [10, 20, 30] = Real.sqrt (200 / 3) := by
    rw [scaleOf, if_neg (by rw [hv]; norm_num), popStd, hv]
    norm_num
  have hspos : 0 < Real.sqrt (200 / 3) := Real.sqrt_pos.mpr (by norm_num)
  have h0 : (standardizeColumn [10, 20, 30]).getD 0 0 = ([-1, 0, 1] : List ℝ).getD 0 0 := by
    rw [h]
  rw [standardizeColumn_getD (by norm_num), hm, hs] at h0
  norm_num [List.getD_cons_zero] at h0
  have h1 : Real.sqrt 200 = 10 * Real.sqrt 3 := by
    field_simp at h0
    linarith
  have h2 := Real.sq_sqrt (show (0 : ℝ) ≤ 200 by norm_num)
  rw [h1, mul_pow, Real.sq_sqrt (show (0 : ℝ) ≤ 3 by norm_num)] at h2
  norm_num at h2

/-- C3 (amended): on the table with single feature column 10, 20, 30,
`compute_index` returns exactly 0, 0.5, 1; the intermediate column-wise
standardization (population standard deviation sqrt(200/3)) produces
-sqrt(3/2), 0, sqrt(3/2) — proportional to -1, 0, 1 but not equal to
it — which min-max rescaling maps to 0, 0.5, 1. -/
theorem C3_scenario_A :
    compute_index dfA none pcaZero = some [0, 1 / 2, 1] ∧
    standardizeColumn [10, 20, 30] = [-Real.sqrt (3 / 2), 0, Real.sqrt (3 / 2)] := by
  have hm : mean [10, 20, 30] = 20 := by norm_num [mean]
  have hv : popVar [10, 20, 30] = 200 / 3 := by norm_num [popVar, hm]
  have hs : scaleOf [10, 20, 30] = Real.sqrt (200 / 3) := by
    rw [scaleOf, if_neg (by rw [hv]; norm_num), popStd, hv]
    norm_num
  have hspos : 0 < Real.sqrt (200 / 3) := Real.sqrt_pos.mpr (by norm_num)
  have hstd : standardizeColumn [10, 20, 30] =
      [-(10 / Real.sqrt (200 / 3)), 0, 10 / Real.sqrt (200 / 3)] := by
    rw [standardizeColumn, hm, hs]
    norm_num [neg_div]
  have hsq : Real.sqrt (200 / 3) ^ 2 = 200 / 3 := Real.sq_sqrt (by norm_num)
  have ht : (10 : ℝ) / Real.sqrt (200 / 3) = Real.sqrt (3 / 2) := by
    have h1 : ((10 : ℝ) / Real.sqrt (200 / 3)) ^ 2 = 3 / 2 := by
      rw [div_pow, hsq]
      norm_num
    rw [← h1, Real.sqrt_sq (by positivity)]
  have htpos : 0 < (10 : ℝ) / Real.sqrt (200 / 3) := by positivity
  refine ⟨?_, by rw [hstd, ht]⟩
  have hsv : scoreVec [[10, 20, 30]] dfA.nrows pcaZero =
      [-(10 / Real.sqrt (200 / 3)), 0, 10 / Real.sqrt (200 / 3)] := by
    rw [scoreVec, if_pos (show ([[10, 20, 30]] : List (List ℚ)).length = 1 from rfl),
      List.headD_cons]
    exact hstd
  have hmax : vmax (scoreVec [[10, 20, 30]] dfA.nrows pcaZero) =
      10 / Real.sqrt (200 / 3) := by
    rw [hsv, vmax]
    simp only [List.foldl_cons, List.foldl_nil]
    rw [max_eq_right (show -(10 / Real.sqrt (200 / 3)) ≤ 0 by linarith),
      max_eq_right (by linarith)]
  have hmin : vmin (scoreVec [[10, 20, 30]] dfA.nrows pcaZero) =
      -(10 / Real.sqrt (200 / 3)) := by
    rw [hsv, vmin]
    simp only [List.foldl_cons, List.foldl_nil]
    rw [min_eq_left (show -(10 / Real.sqrt (200 / 3)) ≤ 0 by linarith),
      min_eq_left (by linarith)]
  rw [compute_index_rescale pcaZero (by decide)
    (show selectCols dfA (selectFeatures dfA none) = some [[10, 20, 30]] from rfl)
    (by decide) (by rw [hmax, hmin]; intro h; linarith)]
  rw [hmax, hmin, hsv]
  have h2t : (10 / Real.sqrt (200 / 3)) - -(10 / Real.sqrt (200 / 3)) ≠ 0 := by
    intro h
    linarith
  simp only [List.map_cons, List.map_nil]
  congr 1
  have e0 : (-(10 / Real.sqrt (200 / 3)) - -(10 / Real.sqrt (200 / 3))) /
      (10 / Real.sqrt (200 / 3) - -(10 / Real.sqrt (200 / 3))) = 0 := by
    rw [sub_self, zero_div]
  have e1 : ((0 : ℝ) - -(10 / Real.sqrt (200 / 3))) /
      (10 / Real.sqrt (200 / 3) - -(10 / Real.sqrt (200 / 3))) = 1 / 2 := by
    rw [zero_sub, neg_neg, sub_neg_eq_add, ← two_mul,
      div_eq_div_iff (by positivity) (two_ne_zero)]
    ring
  have e2 : ((10 / Real.sqrt (200 / 3)) - -(10 / Real.sqrt (200 / 3))) /
      (10 / Real.sqrt (200 / 3) - -(10 / Real.sqrt (200 / 3))) = 1 := div_self h2t
  rw [e0, e1, e2]

/-! ### Real-vector variance and PCA-analysis helpers -/

lemma getD_map_of_lt {f : ℝ → ℝ} {z : List ℝ} {i : ℕ} (hi : i < z.length) :
    (z.map f).getD i 0 = f (z.getD i 0) := by
  rw [List.getD_eq_getElem _ _ (by simpa using hi), List.getElem_map,
    List.getD_eq_getElem _ _ hi]

lemma rsum_eq_zero_of_nonneg {l : List ℝ} (h : ∀ x ∈ l, 0 ≤ x) (hs : l.sum = 0) :
    ∀ x ∈ l, x = 0 := by
  induction l with
  | nil => intro x hx; cases hx
  | cons a l ih =>
    have ha : 0 ≤ a := h a (List.mem_cons_self _ _)
    have hl : 0 ≤ l.sum := List.sum_nonneg (fun x hx => h x (List.mem_cons_of_mem _ hx))
    rw [List.sum_cons] at hs
    have h0 : a = 0 ∧ l.sum = 0 := (add_eq_zero_iff_of_nonneg ha hl).mp hs
    intro x hx
    rcases List.mem_cons.mp hx with rfl | hx
    · exact h0.1
    · exact ih (fun y hy => h y (List.mem_cons_of_mem _ hy)) h0.2 x hx

lemma rvar_nonneg (v : List ℝ) : 0 ≤ rvar v := by
  apply div_nonneg
  · apply List.sum_nonneg
    intro x hx
    rcases List.mem_map.mp hx with ⟨z, _, rfl⟩
    positivity
  · exact_mod_cast Nat.zero_le _

lemma eq_rmean_of_rvar_eq_zero {v : List ℝ} (hv : v ≠ []) (h : rvar v = 0) :
    ∀ x ∈ v, x = rmean v := by
  have hn : (v.length : ℝ) ≠ 0 := by
    exact_mod_cast Nat.cast_ne_zero.mpr (List.length_pos.mpr hv).ne'
  have hs : ((v.map (fun x => (x - rmean v) ^ 2)).sum) = 0 := by
    have h0 := h
    rw [rvar, div_eq_zero_iff] at h0
    exact h0.resolve_right hn
  intro x hx
  have := rsum_eq_zero_of_nonneg (l := v.map (fun x => (x - rmean v) ^ 2))
    (by intro y hy; rcases List.mem_map.mp hy with ⟨z, _, rfl⟩; positivity) hs
    ((x - rmean v) ^ 2) (List.mem_map_of_mem _ hx)
  have hx0 : x - rmean v = 0 := by
    exact pow_eq_zero_iff (n := 2) (by norm_num) |>.mp this
  linarith

lemma rvar_pos {v : List ℝ} {a b : ℝ} (ha : a ∈ v) (hb : b ∈ v) (hab : a ≠ b) :
    0 < rvar v := by
  rcases lt_or_eq_of_le (rvar_nonneg v) with h | h
  · exact h
  · exfalso
    have hv : v ≠ [] := List.ne_nil_of_mem ha
    have h1 := eq_rmean_of_rvar_eq_zero hv h.symm a ha
    have h2 := eq_rmean_of_rvar_eq_zero hv h.symm b hb
    exact hab (h1.trans h2.symm)

lemma rmean_map_mul (l : List ℝ) (a : ℝ) :
    rmean (l.map (fun x => x * a)) = rmean l * a := by
  rw [rmean, rmean, List.length_map]
  rw [show (l.map (fun x => x * a)) = (l.map (fun x => id x * a)) from rfl,
    List.sum_map_mul_right]
  rw [List.map_id]
  ring

lemma rvar_map_mul (l : List ℝ) (a : ℝ) :
    rvar (l.map (fun x => x * a)) = a ^ 2 * rvar l := by
  rw [rvar, rvar, List.length_map, rmean_map_mul, List.map_map]
  have hfun : ((fun x => (x - rmean l * a) ^ 2) ∘ (fun x => x * a)) =
      (fun x => a ^ 2 * (x - rmean l) ^ 2) := by
    funext x
    simp only [Function.comp]
    ring
  rw [hfun, List.sum_map_mul_left]
  ring

lemma foldl_max_map_neg (a : ℝ) (l : List ℝ) :
    (l.map (fun x => -x)).foldl max (-a) = -(l.foldl min a) := by
  induction l generalizing a with
  | nil => rfl
  | cons b l ih =>
    rw [List.map_cons, List.foldl_cons, List.foldl_cons, max_neg_neg]
    exact ih (min a b)

lemma foldl_min_map_neg (a : ℝ) (l : List ℝ) :
    (l.map (fun x => -x)).foldl min (-a) = -(l.foldl max a) := by
  induction l generalizing a with
  | nil => rfl
  | cons b l ih =>
    rw [List.map_cons, List.foldl_cons, List.foldl_cons, min_neg_neg]
    exact ih (max a b)

lemma vmax_map_neg (v : List ℝ) : vmax (v.map (fun x => -x)) = -(vmin v) := by
  cases v with
  | nil => simp [vmax, vmin]
  | cons x xs => exact foldl_max_map_neg x xs

lemma vmin_map_neg (v : List ℝ) : vmin (v.map (fun x => -x)) = -(vmax v) := by
  cases v with
  | nil => simp [vmax, vmin]
  | cons x xs => exact foldl_min_map_neg x xs

lemma vmin_lt_vmax_of_ne {v : List ℝ} {a b : ℝ} (ha : a ∈ v) (hb : b ∈ v)
    (hab : a ≠ b) : vmin v < vmax v := by
  rcases lt_or_gt_of_ne hab with h | h
  · exact lt_of_le_of_lt (vmin_le ha) (lt_of_lt_of_le h (le_vmax hb))
  · exact lt_of_le_of_lt (vmin_le hb) (lt_of_lt_of_le h (le_vmax ha))

lemma range_map_getD (z : List ℝ) (g : ℝ → ℝ) :
    (List.range z.length).map (fun i => g (z.getD i 0)) = z.map g := by
  apply List.ext_getElem (by simp)
  intro i h1 h2
  simp only [List.getElem_map, List.getElem_range]
  rw [List.getD_eq_getElem _ _ (by simpa using h2)]

lemma rowsOf_pair_dot_left {z : List ℝ} {nr : ℕ} (hzlen : z.length = nr) (c d : ℝ) :
    (rowsOf [z, List.replicate nr 0] nr).map (fun r => dot r [c, d]) =
      z.map (fun x => x * c) := by
  subst hzlen
  rw [rowsOf, List.map_map, ← range_map_getD z (fun x => x * c)]
  apply List.map_congr_left
  intro i hi
  simp only [Function.comp, List.map_cons, List.map_nil, dot, List.zipWith_cons_cons,
    List.zipWith_nil, List.sum_cons, List.sum_nil, getD_replicate_zero]
  ring

lemma rowsOf_pair_dot_right {z : List ℝ} {nr : ℕ} (hzlen : z.length = nr) (c d : ℝ) :
    (rowsOf [List.replicate nr 0, z] nr).map (fun r => dot r [c, d]) =
      z.map (fun x => x * d) := by
  subst hzlen
  rw [rowsOf, List.map_map, ← range_map_getD z (fun x => x * d)]
  apply List.map_congr_left
  intro i hi
  simp only [Function.comp, List.map_cons, List.map_nil, dot, List.zipWith_cons_cons,
    List.zipWith_nil, List.sum_cons, List.sum_nil, getD_replicate_zero]
  ring

/-- With a zero column in second position, every variance-maximizing
unit axis projects the rows onto the first column up to sign. -/
lemma firstPC_pair_left {z : List ℝ} {nr : ℕ} {s : List ℝ}
    (hzlen : z.length = nr) (hnr : nr ≠ 0) (hvar : 0 < rvar z)
    (hpc : IsFirstPCScore (rowsOf [z, List.replicate nr 0] nr) s) :
    s = z ∨ s = z.map (fun x => -x) := by
  obtain ⟨w, hrlen, hww, hmaxi, hs⟩ := hpc
  have h0 : (0 : ℕ) ∈ List.range nr := List.mem_range.mpr (Nat.pos_of_ne_zero hnr)
  have hmem : ([z, List.replicate nr 0].map (fun c => c.getD 0 0)) ∈
      rowsOf [z, List.replicate nr 0] nr := by
    rw [rowsOf]
    exact List.mem_map_of_mem _ h0
  have hw2 : w.length = 2 := by
    have := hrlen _ hmem
    simpa using this.symm
  obtain ⟨w1, w2, rfl⟩ := List.length_eq_two.mp hw2
  have hdot : w1 ^ 2 + w2 ^ 2 = 1 := by
    have := hww
    simp only [dot, List.zipWith_cons_cons, List.zipWith_nil, List.sum_cons,
      List.sum_nil] at this
    nlinarith [this]
  have hu := hmaxi [1, 0] rfl (by norm_num [dot])
  rw [rowsOf_pair_dot_left hzlen, rowsOf_pair_dot_left hzlen,
    rvar_map_mul, rvar_map_mul] at hu
  have h1ge : 1 ≤ w1 ^ 2 := by nlinarith [hu, hvar]
  have h1le : w1 ^ 2 ≤ 1 := by nlinarith [sq_nonneg w2, hdot]
  have hw1sq : w1 * w1 = 1 := by nlinarith [le_antisymm h1le h1ge]
  have hw20 : w2 = 0 := by
    have h2 : w2 ^ 2 = 0 := by nlinarith [hdot]
    exact pow_eq_zero_iff (n := 2) (by norm_num) |>.mp h2
  subst hw20
  rw [rowsOf_pair_dot_left hzlen] at hs
  rcases mul_self_eq_one_iff.mp hw1sq with rfl | rfl
  · left
    rw [hs]
    simp
  · right
    rw [hs]
    simp

/-- With a zero column in first position, every variance-maximizing
unit axis projects the rows onto the second column up to sign. -/
lemma firstPC_pair_right {z : List ℝ} {nr : ℕ} {s : List ℝ}
    (hzlen : z.length = nr) (hnr : nr ≠ 0) (hvar : 0 < rvar z)
    (hpc : IsFirstPCScore (rowsOf [List.replicate nr 0, z] nr) s) :
    s = z ∨ s = z.map (fun x => -x) := by
  obtain ⟨w, hrlen, hww, hmaxi, hs⟩ := hpc
  have h0 : (0 : ℕ) ∈ List.range nr := List.mem_range.mpr (Nat.pos_of_ne_zero hnr)
  have hmem : ([List.replicate nr 0, z].map (fun c => c.getD 0 0)) ∈
      rowsOf [List.replicate nr 0, z] nr := by
    rw [rowsOf]
    exact List.mem_map_of_mem _ h0
  have hw2 : w.length = 2 := by
    have := hrlen _ hmem
    simpa using this.symm
  obtain ⟨w1, w2, rfl⟩ := List.length_eq_two.mp hw2
  have hdot : w1 ^ 2 + w2 ^ 2 = 1 := by
    have := hww
    simp only [dot, List.zipWith_cons_cons, List.zipWith_nil, List.sum_cons,
      List.sum_nil] at this
    nlinarith [this]
  have hu := hmaxi [0, 1] rfl (by norm_num [dot])
  rw [rowsOf_pair_dot_right hzlen, rowsOf_pair_dot_right hzlen,
    rvar_map_mul, rvar_map_mul] at hu
  have h1ge : 1 ≤ w2 ^ 2 := by nlinarith [hu, hvar]
  have h1le : w2 ^ 2 ≤ 1 := by nlinarith [sq_nonneg w1, hdot]
  have hw2sq : w2 * w2 = 1 := by nlinarith [le_antisymm h1le h1ge]
  have hw10 : w1 = 0 := by
    have h2 : w1 ^ 2 = 0 := by nlinarith [hdot]
    exact pow_eq_zero_iff (n := 2) (by norm_num) |>.mp h2
  subst hw10
  rw [rowsOf_pair_dot_right hzlen] at hs
  rcases mul_self_eq_one_iff.mp hw2sq with rfl | rfl
  · left
    rw [hs]
    simp
  · right
    rw [hs]
    simp

lemma sameRank_refl (u : List ℝ) : SameRank u u :=
  fun _ _ _ _ => Iff.rfl

/-- The rescaled projection of ±z has the same or reversed rank order
as the rescaled z itself. -/
lemma rank_of_sign {z out outS : List ℝ}
    (hminmax : vmin z < vmax z)
    (houtS : outS = z.map (fun x => (x - vmin z) / (vmax z - vmin z)))
    (hcase : out = z.map (fun x => (x - vmin z) / (vmax z - vmin z)) ∨
      out = (z.map (fun x => -x)).map (fun x =>
        (x - vmin (z.map (fun y => -y))) /
          (vmax (z.map (fun y => -y)) - vmin (z.map (fun y => -y))))) :
    SameRank out outS ∨ RevRank out outS := by
  rcases hcase with hc | hc
  · left
    rw [hc, ← houtS]
    exact sameRank_refl outS
  · right
    subst hc
    subst houtS
    intro i j hi hj
    have hizm : i < (z.map (fun y => -y)).length := by simpa using hi
    have hjzm : j < (z.map (fun y => -y)).length := by simpa using hj
    have hiz : i < z.length := by simpa using hi
    have hjz : j < z.length := by simpa using hj
    rw [getD_map_of_lt hizm, getD_map_of_lt hjzm, getD_map_of_lt hiz,
      getD_map_of_lt hjz, getD_map_of_lt hiz, getD_map_of_lt hjz,
      vmax_map_neg, vmin_map_neg]
    have hd : (0 : ℝ) < vmax z - vmin z := sub_pos.mpr hminmax
    have hd2 : (0 : ℝ) < -vmin z - -(vmax z) := by linarith
    rw [div_lt_div_iff_of_pos_right hd2, div_lt_div_iff_of_pos_right hd]
    constructor <;> intro h <;> linarith

/-- C4 (amended): with exactly two selected feature columns, one
constant (zero variance) and one varying, any score returned by
`compute_index` through a variance-maximizing one-component projection
has the same rank ordering over the rows as the scores from the varying
column alone, OR the exactly reversed ordering — the sign of the
principal axis is not canonicalized, and the reversed ordering does
occur for the negated axis. -/
theorem C4_pca_rank_up_to_sign (df : DataFrame) (features : Option (List String))
    (pca : List (List ℝ) → List ℝ) (nv nc : String) (cv cc : Column) (a : ℚ)
    (hv : getCol df nv = some cv)
    (hcc : getCol df nc = some cc)
    (hconst : ∀ x ∈ filled cc, x = a)
    (hwf : df.WF)
    (i0 j0 : ℕ) (hi0 : i0 < (filled cv).length) (hj0 : j0 < (filled cv).length)
    (hvary : (filled cv).getD i0 0 ≠ (filled cv).getD j0 0)
    (hcase :
      (selectFeatures df features = [nv, nc] ∧
        IsFirstPCScore
          (rowsOf ([filled cv, filled cc].map standardizeColumn) df.nrows)
          (pca (rowsOf ([filled cv, filled cc].map standardizeColumn) df.nrows))) ∨
      (selectFeatures df features = [nc, nv] ∧
        IsFirstPCScore
          (rowsOf ([filled cc, filled cv].map standardizeColumn) df.nrows)
          (pca (rowsOf ([filled cc, filled cv].map standardizeColumn) df.nrows))))
    (out outS : List ℝ)
    (hout : compute_index df features pca = some out)
    (houtS : compute_index df (some [nv]) pca = some outS) :
    SameRank out outS ∨ RevRank out outS := by
  have hcvmem : cv ∈ df.cols := List.mem_of_find?_eq_some hv
  have hccmem : cc ∈ df.cols := List.mem_of_find?_eq_some hcc
  have hcvlen : (filled cv).length = df.nrows := by
    rw [filled, List.length_map]
    exact hwf cv hcvmem
  have hcclen : (filled cc).length = df.nrows := by
    rw [filled, List.length_map]
    exact hwf cc hccmem
  have hnr : df.nrows ≠ 0 := by
    intro h0
    rw [h0] at hcvlen
    exact absurd (hcvlen ▸ hi0) (Nat.not_lt_zero i0)
  set z := standardizeColumn (filled cv) with hzdef
  have hzlen : z.length = df.nrows := by
    rw [hzdef, standardizeColumn, List.length_map, hcvlen]
  have hzero : standardizeColumn (filled cc) = List.replicate df.nrows 0 := by
    rw [standardizeColumn_const hconst, hcclen]
  have hilt : i0 < z.length := by
    rw [hzdef, standardizeColumn, List.length_map]
    exact hi0
  have hjlt : j0 < z.length := by
    rw [hzdef, standardizeColumn, List.length_map]
    exact hj0
  have hzne : z.getD i0 0 ≠ z.getD j0 0 := by
    rcases lt_or_gt_of_ne hvary with h | h
    · exact ne_of_lt (standardizeColumn_lt hi0 hj0 h)
    · exact ne_of_gt (standardizeColumn_lt hj0 hi0 h)
  have hvarz : 0 < rvar z := rvar_pos (getD_mem hilt) (getD_mem hjlt) hzne
  have hmm : vmin z < vmax z := vmin_lt_vmax_of_ne (getD_mem hilt) (getD_mem hjlt) hzne
  have hselS : selectCols df (selectFeatures df (some [nv])) = some [filled cv] := by
    show selectCols df [nv] = some [filled cv]
    rw [selectCols, hv]
    rfl
  have hsvS : scoreVec [filled cv] df.nrows pca = z := by
    rw [scoreVec, if_pos (show ([filled cv] : List (List ℚ)).length = 1 from rfl),
      List.headD_cons, hzdef]
  have hdS : vmax (scoreVec [filled cv] df.nrows pca) ≠
      vmin (scoreVec [filled cv] df.nrows pca) := by
    rw [hsvS]
    exact ne_of_gt hmm
  rw [compute_index_rescale pca (by simp [selectFeatures]) hselS hnr hdS] at houtS
  have houtSv : outS = z.map (fun x => (x - vmin z) / (vmax z - vmin z)) := by
    have h := houtS
    rw [hsvS] at h
    exact (Option.some.inj h).symm
  rcases hcase with ⟨hfs, hpc⟩ | ⟨hfs, hpc⟩
  · have hselX : selectCols df (selectFeatures df features) =
        some [filled cv, filled cc] := by
      rw [hfs]
      simp only [selectCols, hv, hcc]
    have hrows : ([filled cv, filled cc].map standardizeColumn) =
        [z, List.replicate df.nrows 0] := by
      rw [List.map_cons, List.map_cons, List.map_nil, hzero, hzdef]
    rw [hrows] at hpc
    have hsv : scoreVec [filled cv, filled cc] df.nrows pca =
        pca (rowsOf [z, List.replicate df.nrows 0] df.nrows) := by
      rw [scoreVec, if_neg (by norm_num), hrows]
    have hsign := firstPC_pair_left hzlen hnr hvarz hpc
    have hdX : vmax (scoreVec [filled cv, filled cc] df.nrows pca) ≠
        vmin (scoreVec [filled cv, filled cc] df.nrows pca) := by
      rw [hsv]
      rcases hsign with h | h
      · rw [h]
        exact ne_of_gt hmm
      · rw [h, vmax_map_neg, vmin_map_neg]
        intro he
        exact (ne_of_gt hmm) (by linarith)
    rw [compute_index_rescale pca (by rw [hfs]; simp) hselX hnr hdX] at hout
    have houtv := (Option.some.inj hout).symm
    rw [hsv] at houtv
    apply rank_of_sign hmm houtSv
    rcases hsign with h | h
    · left
      rw [houtv, h]
    · right
      rw [houtv, h]
  · have hselX : selectCols df (selectFeatures df features) =
        some [filled cc, filled cv] := by
      rw [hfs]
      simp only [selectCols, hv, hcc]
    have hrows : ([filled cc, filled cv].map standardizeColumn) =
        [List.replicate df.nrows 0, z] := by
      rw [List.map_cons, List.map_cons, List.map_nil, hzero, hzdef]
    rw [hrows] at hpc
    have hsv : scoreVec [filled cc, filled cv] df.nrows pca =
        pca (rowsOf [List.replicate df.nrows 0, z] df.nrows) := by
      rw [scoreVec, if_neg (by norm_num), hrows]
    have hsign := firstPC_pair_right hzlen hnr hvarz hpc
    have hdX : vmax (scoreVec [filled cc, filled cv] df.nrows pca) ≠
        vmin (scoreVec [filled cc, filled cv] df.nrows pca) := by
      rw [hsv]
      rcases hsign with h | h
      · rw [h]
        exact ne_of_gt hmm
      · rw [h, vmax_map_neg, vmin_map_neg]
        intro he
        exact (ne_of_gt hmm) (by linarith)
    rw [compute_index_rescale pca (by rw [hfs]; simp) hselX hnr hdX] at hout
    have houtv := (Option.some.inj hout).symm
    rw [hsv] at houtv
    apply rank_of_sign hmm houtSv
    rcases hsign with h | h
    · left
      rw [houtv, h]
    · right
      rw [houtv, h]

/-- Four rows, two numeric columns: a varying column 0, 0, 2, 2 and a
constant column 5, 5, 5, 5 (spec scenario D). -/
def dfPCA : DataFrame :=
  ⟨4, [⟨"a", true, [some 0, some 0, some 2, some 2]⟩,
       ⟨"b", true, [some 5, some 5, some 5, some 5]⟩]⟩

/-- The one-component projection onto the axis (-1, 0): a legitimate
output of an uncanonicalized PCA on `dfPCA`'s standardized matrix. -/
def pcaNeg : List (List ℝ) → List ℝ := fun rows => rows.map (fun r => dot r [-1, 0])

/-- The constant column 5, 5, 5, 5 standardizes to zeros. -/
lemma standardize_const5 : standardizeColumn [5, 5, 5, 5] = [0, 0, 0, 0] := by
  have := standardizeColumn_const (v := [5, 5, 5, 5]) (a := 5) (by decide)
  simpa using this

/-- The standardized row matrix of `dfPCA`. -/
lemma rows_dfPCA :
    rowsOf ([[0, 0, 2, 2], [5, 5, 5, 5]].map standardizeColumn) 4 =
      [[-1, 0], [-1, 0], [1, 0], [1, 0]] := by
  rw [List.map_cons, List.map_cons, List.map_nil, standardize_half, standardize_const5,
    rowsOf]
  norm_num [List.range_succ, List.getD]

lemma rows4_dot (a b : ℝ) :
    ([[-1, 0], [-1, 0], [1, 0], [1, 0]] : List (List ℝ)).map (fun r => dot r [a, b]) =
      [-a, -a, a, a] := by
  simp only [List.map_cons, List.map_nil, dot, List.zipWith_cons_cons,
    List.zipWith_nil, List.sum_cons, List.sum_nil]
  norm_num

lemma rvar_pmpm (a : ℝ) : rvar [-a, -a, a, a] = a ^ 2 := by
  have hsum : ([-a, -a, a, a] : List ℝ).sum = 0 := by
    simp only [List.sum_cons, List.sum_nil]
    ring
  have hmean : rmean [-a, -a, a, a] = 0 := by
    rw [rmean, hsum, zero_div]
  rw [rvar, hmean]
  simp only [List.map_cons, List.map_nil, List.sum_cons, List.sum_nil, List.length_cons,
    List.length_nil]
  push_cast
  ring

/-- The projection onto (-1, 0) is a genuine first principal component
score for `dfPCA`'s standardized rows. -/
lemma isFirstPC_rows4_neg :
    IsFirstPCScore
      (rowsOf ([[0, 0, 2, 2], [5, 5, 5, 5]].map standardizeColumn) 4)
      (pcaNeg (rowsOf ([[0, 0, 2, 2], [5, 5, 5, 5]].map standardizeColumn) 4)) := by
  rw [rows_dfPCA]
  refine ⟨[-1, 0], ?_, by norm_num [dot], ?_, ?_⟩
  · intro r hr
    fin_cases hr <;> rfl
  · intro u hlen hdot
    obtain ⟨a, b, rfl⟩ := List.length_eq_two.mp hlen
    have hab : a ^ 2 + b ^ 2 = 1 := by
      simp only [dot, List.zipWith_cons_cons, List.zipWith_nil, List.sum_cons,
        List.sum_nil] at hdot
      nlinarith [hdot]
    rw [rows4_dot, rows4_dot, rvar_pmpm, rvar_pmpm]
    nlinarith [sq_nonneg b, hab]
  · rw [pcaNeg, rows4_dot]

/-- The score vector of `dfPCA` under the negated axis. -/
lemma scoreVec_dfPCA_neg :
    scoreVec [[0, 0, 2, 2], [5, 5, 5, 5]] dfPCA.nrows pcaNeg = [1, 1, -1, -1] := by
  rw [scoreVec, if_neg (by norm_num)]
  show pcaNeg (rowsOf ([[0, 0, 2, 2], [5, 5, 5, 5]].map standardizeColumn) 4) = _
  rw [rows_dfPCA, pcaNeg, rows4_dot]
  norm_num

/-- `compute_index` on both columns of `dfPCA` under the negated axis. -/
lemma compute_index_dfPCA_both :
    compute_index dfPCA none pcaNeg = some [1, 1, 0, 0] := by
  have hmax : vmax (scoreVec [[0, 0, 2, 2], [5, 5, 5, 5]] dfPCA.nrows pcaNeg) = 1 := by
    rw [scoreVec_dfPCA_neg]
    norm_num [vmax]
  have hmin : vmin (scoreVec [[0, 0, 2, 2], [5, 5, 5, 5]] dfPCA.nrows pcaNeg) = -1 := by
    rw [scoreVec_dfPCA_neg]
    norm_num [vmin]
  rw [compute_index_rescale pcaNeg (by decide)
    (show selectCols dfPCA (selectFeatures dfPCA none) =
      some [[0, 0, 2, 2], [5, 5, 5, 5]] from rfl)
    (by decide) (by rw [hmax, hmin]; norm_num)]
  rw [hmax, hmin, scoreVec_dfPCA_neg]
  norm_num

/-- `compute_index` on the varying column of `dfPCA` alone. -/
lemma compute_index_dfPCA_single :
    compute_index dfPCA (some ["a"]) pcaNeg = some [0, 0, 1, 1] := by
  have hsv : scoreVec [[0, 0, 2, 2]] dfPCA.nrows pcaNeg = [-1, -1, 1, 1] := by
    rw [scoreVec, if_pos (show ([[0, 0, 2, 2]] : List (List ℚ)).length = 1 from rfl),
      List.headD_cons]
    exact standardize_half
  have hmax : vmax (scoreVec [[0, 0, 2, 2]] dfPCA.nrows pcaNeg) = 1 := by
    rw [hsv]
    norm_num [vmax]
  have hmin : vmin (scoreVec [[0, 0, 2, 2]] dfPCA.nrows pcaNeg) = -1 := by
    rw [hsv]
    norm_num [vmin]
  rw [compute_index_rescale pcaNeg (by decide)
    (show selectCols dfPCA (selectFeatures dfPCA (some ["a"])) =
      some [[0, 0, 2, 2]] from rfl)
    (by decide) (by rw [hmax, hmin]; norm_num)]
  rw [hmax, hmin, hsv]
  norm_num

/-- Counterexample to C4 as stated: the projection onto the axis
(-1, 0) is a variance-maximizing first principal component of the
standardized matrix of `dfPCA` (varying column 0, 0, 2, 2, constant
column 5, 5, 5, 5), yet `compute_index` then returns 1, 1, 0, 0 while
the varying column alone yields 0, 0, 1, 1 — the opposite, not the
same, rank ordering. -/
theorem C4_neg_axis_reverses_order :
    IsFirstPCScore
      (rowsOf ([[0, 0, 2, 2], [5, 5, 5, 5]].map standardizeColumn) dfPCA.nrows)
      (pcaNeg (rowsOf ([[0, 0, 2, 2], [5, 5, 5, 5]].map standardizeColumn) dfPCA.nrows)) ∧
    compute_index dfPCA none pcaNeg = some [1, 1, 0, 0] ∧
    compute_index dfPCA (some ["a"]) pcaNeg = some [0, 0, 1, 1] ∧
    ¬ SameRank [1, 1, 0, 0] [0, 0, 1, 1] := by
  refine ⟨isFirstPC_rows4_neg, compute_index_dfPCA_both, compute_index_dfPCA_single, ?_⟩
  intro h
  have := h 2 0 (by norm_num) (by norm_num)
  norm_num [List.getD] at this

/-- Witness for C4's amended statement on `dfPCA` with the negated
axis: the orderings are the same or reversed (here: reversed). -/
theorem C4_pca_rank_up_to_sign_witness :
    SameRank [1, 1, 0, 0] [0, 0, 1, 1] ∨ RevRank [1, 1, 0, 0] [0, 0, 1, 1] :=
  C4_pca_rank_up_to_sign dfPCA none pcaNeg "a" "b"
    ⟨"a", true, [some 0, some 0, some 2, some 2]⟩
    ⟨"b", true, [some 5, some 5, some 5, some 5]⟩ 5
    rfl rfl (by decide)
    (by intro c hc; fin_cases hc <;> rfl)
    0 2 (by decide) (by decide) (by decide)
    (Or.inl ⟨by decide, isFirstPC_rows4_neg⟩)
    [1, 1, 0, 0] [0, 0, 1, 1] compute_index_dfPCA_both compute_index_dfPCA_single

end Indices
